import Mathlib

/-!
Verification development for `progressrm` (`src/main.rs`), a tool that
estimates the progress of running `rm` processes by matching their open
file descriptors against their lexically-normalized command-line
arguments.

The program runs on Linux, so paths are Unix paths: a shallow embedding
represents a path as its `List Char` contents and a path component as
the Unix cases of Rust's `std::path::Component` (`Prefix` does not exist
on Unix).  All definitions below are translated from `src/main.rs` (and,
for path parsing, from the documented behaviour of Rust's
`Path::components()` on Unix, which `main.rs` relies on).
-/

namespace ProgressRm

/-- Unix cases of Rust's `std::path::Component`: `RootDir` (`/`),
`CurDir` (`.`), `ParentDir` (`..`) and `Normal` (a name). The Windows
`Prefix` case cannot occur in a Unix path. -/
inductive Component where
  | rootDir : Component
  | curDir : Component
  | parentDir : Component
  | normal (name : List Char) : Component
  deriving DecidableEq, Repr

/-- Split a character list on a separator, keeping empty pieces, as
Rust's `str::split` does (`"".split` yields one empty piece). -/
def splitOnChar (sep : Char) : List Char → List (List Char)
  | [] => [[]]
  | c :: rest =>
    if c = sep then [] :: splitOnChar sep rest
    else
      match splitOnChar sep rest with
      | [] => [[c]]
      | p :: ps => (c :: p) :: ps

/-- Classify one slash-separated piece of a Unix path the way
`Path::components()` does: empty pieces and `.` pieces are dropped,
`..` is `ParentDir`, anything else is a `Normal` name. -/
def classify (p : List Char) : Option Component :=
  if p = [] then none
  else if p = ['.'] then none
  else if p = ['.', '.'] then some Component.parentDir
  else some (Component.normal p)

/-- Leading marker of a Unix path, as produced by `Path::components()`:
a path starting with `/` yields `RootDir`; a relative path that is `.`
or starts with `./` keeps its leading `CurDir`; otherwise nothing. -/
def leadRoot (cs : List Char) : List Component :=
  match cs with
  | '/' :: _ => [Component.rootDir]
  | ['.'] => [Component.curDir]
  | '.' :: '/' :: _ => [Component.curDir]
  | _ => []

/-- The component list of a Unix path string, modelling Rust's
`Path::components()` (leading root or `.` marker, then the non-empty,
non-`.` slash-separated pieces). -/
def parseCore (cs : List Char) : List Component :=
  leadRoot cs ++ (splitOnChar '/' cs).filterMap classify

/-- String-level wrapper of `parseCore`. -/
def parsePath (s : String) : List Component :=
  parseCore s.data

/-- Loop body of `normalize_lexically` from `src/main.rs` (lines 55-70):
`lexical` is the `PathBuf` being built, kept as its component list, and
`root` is the number of components of the root marker (0 or 1).  In the
source the guard is `lexical.as_os_str().len() == root` on byte lengths;
since every pushed `Normal` name is non-empty, the byte length equals
the root marker's byte length exactly when no `Normal` component has
been pushed, which is exactly `lexical.length = root` here.
`lexical.pop()` is `dropLast`; `lexical.push(name)` is an append.  The
source's `Component::RootDir => unreachable!()` branch (a root can never
recur past the head on Unix) and its Windows-only `Component::Prefix`
error branch are both modelled as failure. -/
def normRest : List Component → List Component → Nat → Option (List Component)
  | [], lexical, _ => some lexical
  | Component.rootDir :: _, _, _ => none
  | Component.curDir :: rest, lexical, root => normRest rest lexical root
  | Component.parentDir :: rest, lexical, root =>
    if lexical.length = root then none
    else normRest rest lexical.dropLast root
  | Component.normal name :: rest, lexical, root =>
    normRest rest (lexical ++ [Component.normal name]) root

/-- The function `normalize_lexically` of `src/main.rs` (lines 28-72),
on the component list of the input path.  The head `peek` of the source
establishes the root: a leading `ParentDir` fails immediately; a leading
`RootDir` or `CurDir` is pushed and the root marker recorded; an empty
component list returns the empty path; a leading `Normal` leaves the
root at length 0 and is consumed by the loop itself. -/
def normalize_lexically (comps : List Component) : Option (List Component) :=
  match comps with
  | [] => some []
  | Component.parentDir :: _ => none
  | Component.rootDir :: rest => normRest rest [Component.rootDir] 1
  | Component.curDir :: rest => normRest rest [Component.curDir] 1
  | Component.normal _ :: _ => normRest comps [] 0

/-- Character rendering of one component. -/
def compChars : Component → List Char
  | Component.rootDir => ['/']
  | Component.curDir => ['.']
  | Component.parentDir => ['.', '.']
  | Component.normal name => name

/-- Join components with `/` separators. -/
def joinSlash : List Component → List Char
  | [] => []
  | [c] => compChars c
  | c :: rest => compChars c ++ '/' :: joinSlash rest

/-- Render a component list back to the path string a `PathBuf` built by
pushing those components holds: a leading `RootDir` renders as `/` with
no following separator, everything else is `/`-separated. -/
def renderCore : List Component → List Char
  | [] => []
  | Component.rootDir :: rest => '/' :: joinSlash rest
  | l => joinSlash l

/-- `normalize_lexically` as a string-to-string function: parse the
input into components (`Path::components()`), run the source algorithm,
and render the resulting `PathBuf`. -/
def normalizeChars (cs : List Char) : Option (List Char) :=
  (normalize_lexically (parseCore cs)).map renderCore

/-- Model of `cwd.join(s)` (`Path::join` on Unix, used at line 141 of
`src/main.rs`): an absolute argument replaces the base; otherwise the
argument is appended, inserting a `/` separator when the base is
non-empty and does not already end in `/`. -/
def joinCore (base arg : List Char) : List Char :=
  match arg with
  | '/' :: _ => arg
  | _ =>
    if base = [] then arg
    else if base.getLast? = some '/' then base ++ arg
    else base ++ '/' :: arg

/-- Model of Rust's `str::split_terminator`: like `split`, but the final
piece is dropped when it is empty. Used with `'\0'` on the raw cmdline
(line 139 of `src/main.rs`). -/
def split_terminator (sep : Char) (cs : List Char) : List (List Char) :=
  let ps := splitOnChar sep cs
  if ps.getLast? = some [] then ps.dropLast else ps

/-- The NUL character separating cmdline arguments. -/
def nulChar : Char := Char.ofNat 0

/-- Join one cmdline token onto the cwd and normalize it, as line 141 of
`src/main.rs` does per token. -/
def normalizeJoined (cwd tok : List Char) : Option (List Component) :=
  normalize_lexically (parseCore (joinCore cwd tok))

/-- Collect an option-valued map over a list, failing when any element
fails: the value of `.map(|s| f(s).expect(..)).collect()` — `none`
stands for the `expect` panic. -/
def mapExpect (f : α → Option β) : List α → Option (List β)
  | [] => some []
  | a :: l =>
    match f a, mapExpect f l with
    | some b, some bs => some (b :: bs)
    | _, _ => none

/-- Lines 138-142 of `src/main.rs` after the NUL split: drop tokens
starting with `--`, then join each remaining token onto the cwd and
normalize it (the `expect` panic modelled as `none`).  The result is the
`cmdline: Vec<PathBuf>` of the source. -/
def normalizeArgs (cwd : List Char) (tokens : List (List Char)) :
    Option (List (List Component)) :=
  mapExpect (fun s => normalizeJoined cwd s)
    (tokens.filter (fun s => !(['-', '-'].isPrefixOf s)))

/-- Insert with overwrite into an association list: the model of
`HashMap` insertion.  Keys are component lists because Rust `Path`
equality and hashing compare `components()`. -/
def hmInsert : List (List Component × Nat) → List Component → Nat →
    List (List Component × Nat)
  | [], k, v => [(k, v)]
  | (k0, v0) :: rest, k, v =>
    if k0 = k then (k0, v) :: rest else (k0, v0) :: hmInsert rest k v

/-- Lookup in the association-list model of `HashMap`: the value at the
unique entry (if any) whose key equals `k`. -/
def hmGet : List (List Component × Nat) → List Component → Option Nat
  | [], _ => none
  | (k0, v0) :: rest, k => if k0 = k then some v0 else hmGet rest k

/-- Lines 143-148 of `src/main.rs`: `cmdline.iter().cloned().enumerate()
.map(|(i, el)| (el, i)).collect::<HashMap<PathBuf, usize>>()`, i.e. the
normalized arguments inserted left to right keyed by path with their
index as value. -/
def buildLookup (args : List (List Component)) : List (List Component × Nat) :=
  (args.enum.map (fun p => (p.2, p.1))).foldl
    (fun m kv => hmInsert m kv.1 kv.2) []

/-- Lines 151-163 of `src/main.rs`: the ancestor walk over
`filename.components()`. Each turn probes the path of the remaining
components (`components.as_path()`, which equals the probed component
list under `Path` equality) in the lookup; on a miss `next_back()` drops
the last component, and the loop stops when `next_back()` returns
`None` — so the empty path is probed after the last component is
removed. -/
def walkAux (fuel : Nat) (m : List (List Component × Nat)) :
    List Component → Option Nat :=
  match fuel with
  | 0 => fun _ => none
  | fuel + 1 => fun comps =>
    match hmGet m comps with
    | some i => some i
    | none =>
      if comps = [] then none else walkAux fuel m comps.dropLast

/-- The ancestor walk on a whole component list: the source loop always
terminates after at most `comps.length + 1` probes (each miss removes
one component and the loop stops at the empty list), so that much fuel
makes `walkAux` run the loop to its own exit. -/
def walk (m : List (List Component × Nat)) (comps : List Component) : Option Nat :=
  walkAux (comps.length + 1) m comps

/-- The per-process data `main` reads from `/proc/<pid>`: the cwd link
target, the raw NUL-separated cmdline, and the link targets of the open
descriptors yielded by `FdIterator`. -/
structure ProcData where
  pid : Nat
  cwd : List Char
  cmdlineRaw : List Char
  fds : List (List Char)

/-- The body of `main`'s per-pid loop (lines 136-164 of `src/main.rs`)
as a pure function: build the normalized argument list (a `none` is the
`expect("normalizable path")` panic), build the lookup, and report per
descriptor the tuple printed by the loop — pid, descriptor path, the
matched index found by the ancestor walk (if any), and the total
`cmdline.len()`. -/
def processOne (p : ProcData) :
    Option (List (Nat × List Char × Option Nat × Nat)) :=
  match normalizeArgs p.cwd (split_terminator nulChar p.cmdlineRaw) with
  | none => none
  | some args =>
    some (p.fds.map (fun f =>
      (p.pid, f, walk (buildLookup args) (parseCore f), args.length)))

/-- The whole run of `main` over the matched processes, as the list of
emitted observations plus a flag telling whether the run completed: the
`expect` panic at line 141 stops the program, so a failing process
yields no output and no later process is analyzed. -/
def runAll : List ProcData → List (Nat × List Char × Option Nat × Nat) × Bool
  | [] => ([], true)
  | p :: rest =>
    match processOne p with
    | none => ([], false)
    | some obs => (obs ++ (runAll rest).1, (runAll rest).2)

/-- Model of Rust's `str::contains` with a string pattern: substring
containment. -/
def containsStr (hay pat : List Char) : Bool :=
  (List.range (hay.length + 1)).any (fun i => pat.isPrefixOf (hay.drop i))

/-- Decimal value of a digit string. -/
def digitsToNat (s : List Char) : Nat :=
  s.foldl (fun acc c => acc * 10 + (c.toNat - 48)) 0

/-- Model of `"…".parse::<u32>().ok()` as used at line 87 of
`src/main.rs`: succeeds exactly on non-empty all-digit strings whose
decimal value fits in a `u32`.  (Rust's `u32::from_str` also accepts a
leading `+`, but in the source the parse only ever runs on strings that
passed the all-digits filter, where the two agree.) -/
def parse_u32 (s : List Char) : Option Nat :=
  if s ≠ [] ∧ s.all Char.isDigit then
    if digitsToNat s < 2 ^ 32 then some (digitsToNat s) else none
  else none

/-- The pure filter chain of `PidIterator::new` (lines 78-98 of
`src/main.rs`), over the UTF-8-valid names read from `/proc` and a map
`exeOf` giving, per pid, the UTF-8 target of `/proc/<pid>/exe` when the
link read and the UTF-8 conversion both succeed: keep digit-only names,
parse them as `u32`, and keep a pid only when its exe target exists and
contains the pattern. -/
def pidIteratorNew (names : List (List Char)) (exeOf : Nat → Option (List Char))
    (pat : List Char) : List Nat :=
  (((names.filter (fun f => f.all Char.isDigit)).filterMap parse_u32).filter
    (fun pid =>
      match exeOf pid with
      | some s => containsStr s pat
      | none => false))

/-- Spec-side helper: is a component a `Normal` name? -/
def isNormalComp : Component → Bool
  | Component.normal _ => true
  | _ => false

/-- Spec-side helper: the components after the leading root marker. -/
def stripRoot : List Component → List Component
  | Component.rootDir :: r => r
  | Component.curDir :: r => r
  | r => r

/-- Formalization of the spec's escape condition, written from the
spec's words and independent of `normalize_lexically`: after the root
marker, some prefix of the components contains more `..` components
than ordinary names — i.e. `..` would ascend past the path's own
root. -/
def wouldEscape (comps : List Component) : Bool :=
  let rest := stripRoot comps
  (List.range (rest.length + 1)).any (fun k =>
    (rest.take k).countP (fun c => decide (c = Component.parentDir)) >
      (rest.take k).countP isNormalComp)

/-! Helper lemmas about the path parser. -/

theorem splitOnChar_ne_nil (sep : Char) (cs : List Char) : splitOnChar sep cs ≠ [] := by
  induction cs with
  | nil => simp [splitOnChar]
  | cons c rest ih =>
    simp only [splitOnChar]
    split
    · simp
    · rcases h : splitOnChar sep rest with _ | ⟨p, ps⟩ <;> simp

theorem not_mem_of_mem_splitOnChar {sep : Char} {cs p : List Char}
    (hp : p ∈ splitOnChar sep cs) : sep ∉ p := by
  induction cs generalizing p with
  | nil =>
    simp only [splitOnChar, List.mem_singleton] at hp
    subst hp; simp
  | cons c rest ih =>
    simp only [splitOnChar] at hp
    by_cases hc : c = sep
    · rw [if_pos hc] at hp
      rcases List.mem_cons.mp hp with h | h
      · subst h; simp
      · exact ih h
    · rw [if_neg hc] at hp
      rcases hq : splitOnChar sep rest with _ | ⟨q, qs⟩
      · exact absurd hq (splitOnChar_ne_nil sep rest)
      · rw [hq] at hp
        rcases List.mem_cons.mp hp with h | h
        · subst h
          intro hmem
          rcases List.mem_cons.mp hmem with h | h
          · exact hc h.symm
          · exact ih (hq ▸ List.mem_cons_self q qs) h
        · exact ih (hq ▸ List.mem_cons_of_mem q h)

theorem splitOnChar_no_sep {sep : Char} {a : List Char} (ha : sep ∉ a) :
    splitOnChar sep a = [a] := by
  induction a with
  | nil => rfl
  | cons c a ih =>
    have hc : c ≠ sep := fun h => ha (h ▸ List.mem_cons_self c a)
    have ha' : sep ∉ a := fun h => ha (List.mem_cons_of_mem c h)
    simp only [splitOnChar, if_neg hc, ih ha']

theorem splitOnChar_append_sep {sep : Char} {a : List Char} (ha : sep ∉ a)
    (b : List Char) : splitOnChar sep (a ++ sep :: b) = a :: splitOnChar sep b := by
  induction a with
  | nil => simp [splitOnChar]
  | cons c a ih =>
    have hc : c ≠ sep := fun h => ha (h ▸ List.mem_cons_self c a)
    have ha' : sep ∉ a := fun h => ha (List.mem_cons_of_mem c h)
    simp only [List.cons_append, splitOnChar, if_neg hc, List.append_eq, ih ha']

/-- A name accepted by `classify` as a `Normal` component: non-empty,
not `.`, not `..`, and (coming from a slash split) free of `/`. -/
def validName (n : List Char) : Prop :=
  n ≠ [] ∧ n ≠ ['.'] ∧ n ≠ ['.', '.'] ∧ '/' ∉ n

theorem classify_eq_some {p : List Char} {c : Component} (h : classify p = some c) :
    c = Component.parentDir ∨
      (c = Component.normal p ∧ p ≠ [] ∧ p ≠ ['.'] ∧ p ≠ ['.', '.']) := by
  by_cases h0 : p = []
  · simp [classify, h0] at h
  · by_cases h1 : p = ['.']
    · simp [classify, h0, h1] at h
    · by_cases h2 : p = ['.', '.']
      · left
        simp only [classify, if_neg h0, if_neg h1, if_pos h2, Option.some.injEq] at h
        exact h.symm
      · right
        simp only [classify, if_neg h0, if_neg h1, if_neg h2, Option.some.injEq] at h
        exact ⟨h.symm, h0, h1, h2⟩

theorem classify_validName {n : List Char} (h : validName n) :
    classify n = some (Component.normal n) := by
  rcases h with ⟨h0, h1, h2, _⟩
  simp [classify, h0, h1, h2]

theorem mem_parseTail {cs : List Char} {c : Component}
    (h : c ∈ (splitOnChar '/' cs).filterMap classify) :
    c = Component.parentDir ∨ ∃ n, c = Component.normal n ∧ validName n := by
  rcases List.mem_filterMap.mp h with ⟨p, hp, hcl⟩
  have hsep : '/' ∉ p := not_mem_of_mem_splitOnChar hp
  rcases classify_eq_some hcl with h | ⟨hc, h0, h1, h2⟩
  · exact Or.inl h
  · exact Or.inr ⟨p, hc, h0, h1, h2, hsep⟩

theorem rootDir_not_mem_parseTail {cs : List Char} :
    Component.rootDir ∉ (splitOnChar '/' cs).filterMap classify := by
  intro h
  rcases mem_parseTail h with h | ⟨n, h, _⟩ <;> simp at h

theorem curDir_not_mem_parseTail {cs : List Char} :
    Component.curDir ∉ (splitOnChar '/' cs).filterMap classify := by
  intro h
  rcases mem_parseTail h with h | ⟨n, h, _⟩ <;> simp at h

theorem parentDir_not_mem_parseTail_of_valid {cs : List Char} :
    ∀ c ∈ (splitOnChar '/' cs).filterMap classify,
      c = Component.parentDir ∨ ∃ n, c = Component.normal n ∧ validName n :=
  fun _ h => mem_parseTail h

theorem leadRoot_cases (cs : List Char) :
    leadRoot cs = [] ∨ leadRoot cs = [Component.rootDir] ∨
      leadRoot cs = [Component.curDir] := by
  unfold leadRoot
  split <;> simp

/-! Characterization of the failure of `normRest` by a running depth
counter, and of that counter by prefix counts. -/

/-- Depth-counter reformulation of the failure condition of the
`normalize_lexically` loop: `d` is the number of emitted name components
above the root. -/
def escapeB : List Component → Nat → Bool
  | [], _ => false
  | Component.rootDir :: _, _ => true
  | Component.curDir :: r, d => escapeB r d
  | Component.parentDir :: r, d => if d = 0 then true else escapeB r (d - 1)
  | Component.normal _ :: r, d => escapeB r (d + 1)

theorem normRest_eq_none_iff_escapeB :
    ∀ (rest lexical : List Component) (root : Nat), root ≤ lexical.length →
      (normRest rest lexical root = none ↔
        escapeB rest (lexical.length - root) = true) := by
  intro rest
  induction rest with
  | nil => intro lex root h; simp [normRest, escapeB]
  | cons c r ih =>
    intro lex root h
    cases c with
    | rootDir => simp [normRest, escapeB]
    | curDir =>
      simp only [normRest, escapeB]
      exact ih lex root h
    | parentDir =>
      simp only [normRest, escapeB]
      by_cases hz : lex.length = root
      · have hd : lex.length - root = 0 := by omega
        simp [hz, hd]
      · have hd : lex.length - root ≠ 0 := by omega
        rw [if_neg hz, if_neg hd]
        have hlen : lex.dropLast.length = lex.length - 1 := by
          simp [List.length_dropLast]
        have h' : root ≤ lex.dropLast.length := by omega
        rw [ih lex.dropLast root h', hlen]
        have harith : lex.length - 1 - root = lex.length - root - 1 := by omega
        rw [harith]
    | normal name =>
      simp only [normRest, escapeB]
      have h' : root ≤ (lex ++ [Component.normal name]).length := by simp; omega
      rw [ih (lex ++ [Component.normal name]) root h']
      have harith : (lex ++ [Component.normal name]).length - root =
          lex.length - root + 1 := by simp; omega
      rw [harith]

theorem escapeB_iff_exists :
    ∀ (r : List Component), Component.rootDir ∉ r → ∀ (d : Nat),
      (escapeB r d = true ↔ ∃ k ≤ r.length,
        (r.take k).countP isNormalComp + d <
          (r.take k).countP (fun c => decide (c = Component.parentDir))) := by
  intro r
  induction r with
  | nil =>
    intro _ d
    simp only [escapeB]
    constructor
    · intro h; cases h
    · rintro ⟨k, hk, h⟩
      simp at h
  | cons c r ih =>
    intro hr d
    have hr' : Component.rootDir ∉ r := fun h => hr (List.mem_cons_of_mem c h)
    cases c with
    | rootDir => exact absurd (List.mem_cons_self _ _) hr
    | curDir =>
      simp only [escapeB]
      rw [ih hr' d]
      constructor
      · rintro ⟨k, hk, h⟩
        refine ⟨k + 1, by simpa using hk, ?_⟩
        simpa [List.take_succ_cons, isNormalComp] using h
      · rintro ⟨k, hk, h⟩
        match k with
        | 0 => simp at h
        | j + 1 =>
          refine ⟨j, by simpa using hk, ?_⟩
          simpa [List.take_succ_cons, isNormalComp] using h
    | parentDir =>
      simp only [escapeB]
      by_cases hd : d = 0
      · subst hd
        simp only [if_pos rfl]
        constructor
        · intro _
          refine ⟨1, by simp, ?_⟩
          simp [List.take_succ_cons, isNormalComp]
        · intro _; rfl
      · rw [if_neg hd]
        obtain ⟨s, rfl⟩ : ∃ s, d = s + 1 := ⟨d - 1, by omega⟩
        have hs : s + 1 - 1 = s := by omega
        rw [hs, ih hr' s]
        constructor
        · rintro ⟨k, hk, h⟩
          refine ⟨k + 1, by simpa using hk, ?_⟩
          simp only [List.take_succ_cons]
          simp [List.countP_cons, isNormalComp]
          omega
        · rintro ⟨k, hk, h⟩
          match k with
          | 0 => simp at h
          | j + 1 =>
            refine ⟨j, by simpa using hk, ?_⟩
            simp only [List.take_succ_cons] at h
            simp [List.countP_cons, isNormalComp] at h
            omega
    | normal name =>
      simp only [escapeB]
      rw [ih hr' (d + 1)]
      constructor
      · rintro ⟨k, hk, h⟩
        refine ⟨k + 1, by simpa using hk, ?_⟩
        simp only [List.take_succ_cons]
        simp [List.countP_cons, isNormalComp]
        omega
      · rintro ⟨k, hk, h⟩
        match k with
        | 0 => simp at h
        | j + 1 =>
          refine ⟨j, by simpa using hk, ?_⟩
          simp only [List.take_succ_cons] at h
          simp [List.countP_cons, isNormalComp] at h
          omega

theorem exists_escape_iff_any (t : List Component) :
    (∃ k ≤ t.length, (t.take k).countP isNormalComp + 0 <
        (t.take k).countP (fun c => decide (c = Component.parentDir))) ↔
      ((List.range (t.length + 1)).any (fun k =>
        (t.take k).countP (fun c => decide (c = Component.parentDir)) >
          (t.take k).countP isNormalComp) = true) := by
  rw [List.any_eq_true]
  constructor
  · rintro ⟨k, hk, h⟩
    refine ⟨k, List.mem_range.mpr (by omega), ?_⟩
    simp only [decide_eq_true_eq, gt_iff_lt]
    omega
  · rintro ⟨k, hk, h⟩
    simp only [decide_eq_true_eq, gt_iff_lt] at h
    have hk' := List.mem_range.mp hk
    exact ⟨k, by omega, by omega⟩

/-- Failure characterization of `normalize_lexically` on any parsed
path: it returns an error exactly when some prefix of the post-root
components contains more `..` components than names. -/
theorem normalize_none_iff_wouldEscape (cs : List Char) :
    normalize_lexically (parseCore cs) = none ↔ wouldEscape (parseCore cs) = true := by
  have hroot : Component.rootDir ∉ (splitOnChar '/' cs).filterMap classify :=
    rootDir_not_mem_parseTail
  have hcur : Component.curDir ∉ (splitOnChar '/' cs).filterMap classify :=
    curDir_not_mem_parseTail
  rcases leadRoot_cases cs with h0 | h0 | h0 <;> rw [parseCore, h0]
  · rw [List.nil_append]
    rcases ht : (splitOnChar '/' cs).filterMap classify with _ | ⟨c, rest⟩
    · decide
    · cases c with
      | rootDir => exact absurd (ht ▸ List.mem_cons_self _ _) hroot
      | curDir => exact absurd (ht ▸ List.mem_cons_self _ _) hcur
      | parentDir =>
        simp only [normalize_lexically, wouldEscape, stripRoot]
        constructor
        · intro _
          rw [List.any_eq_true]
          refine ⟨1, List.mem_range.mpr (by simp only [List.length_cons]; omega), ?_⟩
          simp [List.take_succ_cons, List.countP_cons, isNormalComp]
        · intro _; trivial
      | normal name =>
        simp only [normalize_lexically]
        rw [normRest_eq_none_iff_escapeB _ [] 0 (by simp)]
        simp only [List.length_nil, Nat.sub_zero]
        rw [escapeB_iff_exists _ (ht ▸ hroot) 0]
        simp only [wouldEscape, stripRoot]
        exact exists_escape_iff_any _
  · simp only [List.cons_append, List.nil_append, normalize_lexically]
    rw [normRest_eq_none_iff_escapeB _ [Component.rootDir] 1 (by simp)]
    simp only [List.length_singleton, Nat.sub_self]
    rw [escapeB_iff_exists _ hroot 0]
    simp only [wouldEscape, stripRoot]
    exact exists_escape_iff_any _
  · simp only [List.cons_append, List.nil_append, normalize_lexically]
    rw [normRest_eq_none_iff_escapeB _ [Component.curDir] 1 (by simp)]
    simp only [List.length_singleton, Nat.sub_self]
    rw [escapeB_iff_exists _ hroot 0]
    simp only [wouldEscape, stripRoot]
    exact exists_escape_iff_any _

/-! Shape of successful `normalize_lexically` results: the root marker
followed by `Normal` components with names valid for re-parsing. -/

theorem normRest_shape :
    ∀ (rest : List Component) {t rp out : List Component},
      normRest rest (rp ++ t) rp.length = some out →
      (∀ c ∈ rest, c = Component.parentDir ∨ c = Component.curDir ∨
        ∃ n, c = Component.normal n ∧ validName n) →
      (∀ c ∈ t, ∃ n, c = Component.normal n ∧ validName n) →
      ∃ t', out = rp ++ t' ∧ ∀ c ∈ t', ∃ n, c = Component.normal n ∧ validName n := by
  intro rest
  induction rest with
  | nil =>
    intro t rp out h _ ht
    simp only [normRest, Option.some.injEq] at h
    exact ⟨t, h.symm, ht⟩
  | cons c rest ih =>
    intro t rp out h hrest ht
    have hrest' : ∀ d ∈ rest, d = Component.parentDir ∨ d = Component.curDir ∨
        ∃ n, d = Component.normal n ∧ validName n :=
      fun d hd => hrest d (List.mem_cons_of_mem c hd)
    cases c with
    | rootDir =>
      rcases hrest _ (List.mem_cons_self _ _) with h' | h' | ⟨n, h', _⟩ <;> simp at h'
    | curDir =>
      simp only [normRest] at h
      exact ih h hrest' ht
    | parentDir =>
      simp only [normRest] at h
      by_cases hz : (rp ++ t).length = rp.length
      · rw [if_pos hz] at h; cases h
      · rw [if_neg hz] at h
        have htne : t ≠ [] := by
          intro h'; subst h'; simp at hz
        rw [List.dropLast_append_of_ne_nil rp htne] at h
        exact ih h hrest' (fun c hc => ht c (List.dropLast_subset t hc))
    | normal name =>
      simp only [normRest] at h
      rw [List.append_assoc] at h
      refine ih h hrest' (fun c hc => ?_)
      rcases List.mem_append.mp hc with hc | hc
      · exact ht c hc
      · rw [List.mem_singleton.mp hc]
        rcases hrest _ (List.mem_cons_self _ _) with h' | h' | ⟨n, h', hv⟩
        · cases h'
        · cases h'
        · exact ⟨n, h', hv⟩

theorem normalize_shape {cs : List Char} {out : List Component}
    (h : normalize_lexically (parseCore cs) = some out) :
    ∃ rp t, (rp = [] ∨ rp = [Component.rootDir] ∨ rp = [Component.curDir]) ∧
      out = rp ++ t ∧ ∀ c ∈ t, ∃ n, c = Component.normal n ∧ validName n := by
  have htail : ∀ c ∈ (splitOnChar '/' cs).filterMap classify,
      c = Component.parentDir ∨ c = Component.curDir ∨
        ∃ n, c = Component.normal n ∧ validName n := by
    intro c hc
    rcases mem_parseTail hc with h' | ⟨n, h', hv⟩
    · exact Or.inl h'
    · exact Or.inr (Or.inr ⟨n, h', hv⟩)
  rcases leadRoot_cases cs with h0 | h0 | h0 <;> rw [parseCore, h0] at h
  · rw [List.nil_append] at h
    rcases ht : (splitOnChar '/' cs).filterMap classify with _ | ⟨c, rest⟩ <;>
      rw [ht] at h htail
    · simp only [normalize_lexically, Option.some.injEq] at h
      exact ⟨[], [], Or.inl rfl, h.symm, by simp⟩
    · cases c with
      | rootDir =>
        rcases htail _ (List.mem_cons_self _ _) with h' | h' | ⟨n, h', _⟩ <;> simp at h'
      | curDir =>
        exact absurd (ht ▸ List.mem_cons_self _ _) curDir_not_mem_parseTail
      | parentDir => simp [normalize_lexically] at h
      | normal name =>
        simp only [normalize_lexically] at h
        have h' : normRest (Component.normal name :: rest)
            (([] : List Component) ++ []) (List.length ([] : List Component)) =
            some out := by simpa using h
        rcases normRest_shape _ h' htail (by simp) with ⟨t', hout, ht'⟩
        exact ⟨[], t', Or.inl rfl, by simpa using hout, ht'⟩
  · rw [List.cons_append, List.nil_append] at h
    simp only [normalize_lexically] at h
    have h' : normRest ((splitOnChar '/' cs).filterMap classify)
        ([Component.rootDir] ++ []) (List.length [Component.rootDir]) = some out := by
      simpa using h
    rcases normRest_shape _ h' htail (by simp) with ⟨t', hout, ht'⟩
    exact ⟨[Component.rootDir], t', Or.inr (Or.inl rfl), hout, ht'⟩
  · rw [List.cons_append, List.nil_append] at h
    simp only [normalize_lexically] at h
    have h' : normRest ((splitOnChar '/' cs).filterMap classify)
        ([Component.curDir] ++ []) (List.length [Component.curDir]) = some out := by
      simpa using h
    rcases normRest_shape _ h' htail (by simp) with ⟨t', hout, ht'⟩
    exact ⟨[Component.curDir], t', Or.inr (Or.inr rfl), hout, ht'⟩

theorem normRest_of_normals :
    ∀ (t lexical : List Component) (root : Nat),
      (∀ c ∈ t, ∃ n, c = Component.normal n) →
      normRest t lexical root = some (lexical ++ t) := by
  intro t
  induction t with
  | nil => intro lexical root _; simp [normRest]
  | cons c t ih =>
    intro lexical root ht
    rcases ht c (List.mem_cons_self _ _) with ⟨n, rfl⟩
    simp only [normRest]
    rw [ih (lexical ++ [Component.normal n]) root
      (fun c hc => ht c (List.mem_cons_of_mem _ hc))]
    simp

theorem normalize_of_clean {rp t : List Component}
    (hrp : rp = [] ∨ rp = [Component.rootDir] ∨ rp = [Component.curDir])
    (ht : ∀ c ∈ t, ∃ n, c = Component.normal n) :
    normalize_lexically (rp ++ t) = some (rp ++ t) := by
  rcases hrp with rfl | rfl | rfl
  · rw [List.nil_append]
    cases t with
    | nil => rfl
    | cons c t =>
      rcases ht c (List.mem_cons_self _ _) with ⟨n, rfl⟩
      simp only [normalize_lexically]
      have := normRest_of_normals (Component.normal n :: t) [] 0 ht
      simpa using this
  · rw [List.cons_append, List.nil_append]
    simp only [normalize_lexically]
    exact normRest_of_normals t [Component.rootDir] 1 ht
  · rw [List.cons_append, List.nil_append]
    simp only [normalize_lexically]
    exact normRest_of_normals t [Component.curDir] 1 ht

/-! Round trip: rendering a clean component list and re-parsing it with
`Path::components()` gives the same components back. -/

theorem filterMap_classify_joinSlash :
    ∀ (t : List Component), (∀ c ∈ t, ∃ n, c = Component.normal n ∧ validName n) →
      (splitOnChar '/' (joinSlash t)).filterMap classify = t := by
  intro t
  induction t with
  | nil => intro _; rfl
  | cons c t ih =>
    intro ht
    rcases ht c (List.mem_cons_self _ _) with ⟨n, rfl, hv⟩
    have hv' := hv
    rcases hv' with ⟨h0, h1, h2, h3⟩
    cases t with
    | nil =>
      show (splitOnChar '/' (compChars (Component.normal n))).filterMap classify =
        [Component.normal n]
      rw [compChars, splitOnChar_no_sep h3]
      simp [List.filterMap_cons, classify_validName hv]
    | cons c2 t2 =>
      have hjoin : joinSlash (Component.normal n :: c2 :: t2) =
          n ++ '/' :: joinSlash (c2 :: t2) := rfl
      rw [hjoin, splitOnChar_append_sep h3]
      simp only [List.filterMap_cons, classify_validName hv]
      rw [ih (fun c hc => ht c (List.mem_cons_of_mem _ hc))]

theorem leadRoot_ne_slash_dot {ch : Char} (X : List Char) (h1 : ch ≠ '/')
    (h2 : ch ≠ '.') : leadRoot (ch :: X) = [] := by
  unfold leadRoot
  split
  · next heq => rw [List.cons.injEq] at heq; exact absurd heq.1 h1
  · next heq => rw [List.cons.injEq] at heq; exact absurd heq.1 h2
  · next heq => rw [List.cons.injEq] at heq; exact absurd heq.1 h2
  · rfl

theorem leadRoot_dot_cons {c2 : Char} (X : List Char) (h : c2 ≠ '/') :
    leadRoot ('.' :: c2 :: X) = [] := by
  unfold leadRoot
  split
  · next heq =>
    rw [List.cons.injEq] at heq
    exact absurd heq.1 (by decide)
  · next heq =>
    rw [List.cons.injEq] at heq
    cases heq.2
  · next heq =>
    rw [List.cons.injEq, List.cons.injEq] at heq
    exact absurd heq.2.1 h
  · rfl

theorem leadRoot_validName_append {n R : List Char} (hv : validName n) :
    leadRoot (n ++ R) = [] := by
  rcases hv with ⟨h0, h1, h2, h3⟩
  match n, h0 with
  | ch :: n', _ =>
    have hch : ch ≠ '/' := fun h => h3 (h ▸ List.mem_cons_self _ _)
    by_cases hdot : ch = '.'
    · subst hdot
      cases n' with
      | nil => exact absurd rfl h1
      | cons c2 n'' =>
        have hc2 : c2 ≠ '/' := fun h => h3 (by simp [h])
        simpa using leadRoot_dot_cons (n'' ++ R) hc2
    · simpa using leadRoot_ne_slash_dot (n' ++ R) hch hdot

theorem parse_render {rp t : List Component}
    (hrp : rp = [] ∨ rp = [Component.rootDir] ∨ rp = [Component.curDir])
    (ht : ∀ c ∈ t, ∃ n, c = Component.normal n ∧ validName n) :
    parseCore (renderCore (rp ++ t)) = rp ++ t := by
  rcases hrp with rfl | rfl | rfl
  · rw [List.nil_append]
    cases t with
    | nil => rfl
    | cons c t2 =>
      rcases ht c (List.mem_cons_self _ _) with ⟨n, rfl, hv⟩
      have hrc : renderCore (Component.normal n :: t2) =
          joinSlash (Component.normal n :: t2) := rfl
      rw [hrc, parseCore, filterMap_classify_joinSlash _ ht]
      have hJ : ∃ R, joinSlash (Component.normal n :: t2) = n ++ R := by
        cases t2 with
        | nil => exact ⟨[], by simp [joinSlash, compChars]⟩
        | cons c2 t3 => exact ⟨'/' :: joinSlash (c2 :: t3), rfl⟩
      rcases hJ with ⟨R, hJ⟩
      rw [hJ, leadRoot_validName_append hv, List.nil_append]
  · rw [List.singleton_append]
    have hrc : renderCore (Component.rootDir :: t) = '/' :: joinSlash t := rfl
    rw [hrc, parseCore]
    have hsplit : splitOnChar '/' ('/' :: joinSlash t) =
        [] :: splitOnChar '/' (joinSlash t) := by
      simp [splitOnChar]
    rw [hsplit]
    have hstep : List.filterMap classify ([] :: splitOnChar '/' (joinSlash t)) =
        List.filterMap classify (splitOnChar '/' (joinSlash t)) := rfl
    rw [hstep, filterMap_classify_joinSlash _ ht]
    rfl
  · rw [List.singleton_append]
    cases t with
    | nil => rfl
    | cons c2 t2 =>
      rcases ht c2 (List.mem_cons_self _ _) with ⟨m, hm, hv⟩
      have hne : c2 :: t2 ≠ [] := by simp
      have hrc : renderCore (Component.curDir :: c2 :: t2) =
          '.' :: '/' :: joinSlash (c2 :: t2) := rfl
      rw [hrc, parseCore]
      have hsplit : splitOnChar '/' ('.' :: '/' :: joinSlash (c2 :: t2)) =
          ['.'] :: splitOnChar '/' (joinSlash (c2 :: t2)) := by
        simp [splitOnChar]
      rw [hsplit]
      have hstep : List.filterMap classify
          (['.'] :: splitOnChar '/' (joinSlash (c2 :: t2))) =
          List.filterMap classify (splitOnChar '/' (joinSlash (c2 :: t2))) := rfl
      rw [hstep, filterMap_classify_joinSlash _ ht]
      rfl

/-! The ancestor walk probes the prefixes of the component list from the
longest down to the empty one. -/

theorem findSome?_ext {α β : Type} (f g : α → Option β) :
    ∀ (l : List α), (∀ a ∈ l, f a = g a) → l.findSome? f = l.findSome? g := by
  intro l
  induction l with
  | nil => intro _; rfl
  | cons a l ih =>
    intro h
    rw [List.findSome?_cons, List.findSome?_cons, h a (List.mem_cons_self _ _),
      ih (fun a ha => h a (List.mem_cons_of_mem _ ha))]

theorem walkAux_eq_findSome? :
    ∀ (fuel : Nat) (m : List (List Component × Nat)) (comps : List Component),
      comps.length < fuel →
      walkAux fuel m comps = List.findSome? (fun k => hmGet m (comps.take k))
        ((List.range (comps.length + 1)).reverse) := by
  intro fuel
  induction fuel with
  | zero => intro m comps h; omega
  | succ fuel ih =>
    intro m comps h
    have hrev : (List.range (comps.length + 1)).reverse =
        comps.length :: (List.range comps.length).reverse := by
      rw [List.range_succ, List.reverse_append]
      rfl
    rw [hrev, List.findSome?_cons, List.take_length]
    simp only [walkAux]
    cases hget : hmGet m comps with
    | some i => rfl
    | none =>
      by_cases hnil : comps = []
      · subst hnil
        simp
      · rw [if_neg hnil]
        have hpos : 0 < comps.length := List.length_pos.mpr hnil
        have hlt : comps.dropLast.length < fuel := by
          rw [List.length_dropLast]; omega
        rw [ih m comps.dropLast hlt]
        rw [List.length_dropLast]
        have hn : comps.length - 1 + 1 = comps.length := by omega
        rw [hn]
        apply findSome?_ext
        intro k hk
        have hk' : k < comps.length := List.mem_range.mp (List.mem_reverse.mp hk)
        rw [List.dropLast_eq_take, List.take_take]
        have : min k (comps.length - 1) = k := by omega
        rw [this]

theorem walk_eq_findSome? (m : List (List Component × Nat)) (comps : List Component) :
    walk m comps = List.findSome? (fun k => hmGet m (comps.take k))
      ((List.range (comps.length + 1)).reverse) :=
  walkAux_eq_findSome? (comps.length + 1) m comps (Nat.lt_succ_self _)

/-! Lookup-table construction lemmas: overwrite semantics and key
uniqueness. -/

theorem hmGet_hmInsert (m : List (List Component × Nat)) (k : List Component)
    (v : Nat) (k' : List Component) :
    hmGet (hmInsert m k v) k' = if k = k' then some v else hmGet m k' := by
  induction m with
  | nil => simp [hmInsert, hmGet]
  | cons e m ih =>
    obtain ⟨k0, v0⟩ := e
    by_cases h0 : k0 = k
    · subst h0
      simp only [hmInsert, if_pos rfl]
      by_cases h : k0 = k'
      · simp [hmGet, h]
      · simp [hmGet, h]
    · simp only [hmInsert, if_neg h0]
      by_cases h : k0 = k'
      · subst h
        have hk : ¬k = k0 := fun hc => h0 hc.symm
        simp [hmGet, hk]
      · simp [hmGet, h, ih]

theorem mem_keys_hmInsert (m : List (List Component × Nat)) (k : List Component)
    (v : Nat) (a : List Component) :
    a ∈ (hmInsert m k v).map Prod.fst ↔ a ∈ m.map Prod.fst ∨ a = k := by
  induction m with
  | nil => simp [hmInsert]
  | cons e m ih =>
    obtain ⟨k0, v0⟩ := e
    by_cases h0 : k0 = k
    · subst h0
      rw [hmInsert, if_pos rfl]
      simp only [List.map_cons, List.mem_cons]
      tauto
    · rw [hmInsert, if_neg h0]
      simp only [List.map_cons, List.mem_cons, ih]
      tauto

theorem nodupKeys_hmInsert (m : List (List Component × Nat)) (k : List Component)
    (v : Nat) (h : (m.map Prod.fst).Nodup) :
    ((hmInsert m k v).map Prod.fst).Nodup := by
  induction m with
  | nil => simp [hmInsert]
  | cons e m ih =>
    obtain ⟨k0, v0⟩ := e
    simp only [List.map_cons, List.nodup_cons] at h
    by_cases h0 : k0 = k
    · subst h0
      rw [hmInsert, if_pos rfl]
      simp only [List.map_cons, List.nodup_cons]
      exact h
    · rw [hmInsert, if_neg h0]
      simp only [List.map_cons, List.nodup_cons]
      refine ⟨?_, ih h.2⟩
      rw [mem_keys_hmInsert]
      rintro (hc | hc)
      · exact h.1 hc
      · exact h0 hc

theorem buildLookup_concat (args : List (List Component)) (a : List Component) :
    buildLookup (args ++ [a]) = hmInsert (buildLookup args) a args.length := by
  unfold buildLookup
  rw [List.enum_append]
  have h1 : List.enumFrom args.length [a] = [(args.length, a)] := by simp
  rw [h1, List.map_append, List.foldl_append]
  rfl

theorem nodupKeys_buildLookup (args : List (List Component)) :
    ((buildLookup args).map Prod.fst).Nodup := by
  induction args using List.reverseRecOn with
  | nil => simp [buildLookup]
  | append_singleton args a ih =>
    rw [buildLookup_concat]
    exact nodupKeys_hmInsert _ _ _ ih

theorem hmGet_buildLookup (args : List (List Component)) (k : List Component) :
    hmGet (buildLookup args) k =
      ((args.enum.filter (fun p => decide (p.2 = k))).map Prod.fst).getLast? := by
  induction args using List.reverseRecOn with
  | nil => rfl
  | append_singleton args a ih =>
    rw [buildLookup_concat, hmGet_hmInsert, List.enum_append]
    have h1 : List.enumFrom args.length [a] = [(args.length, a)] := by simp
    rw [h1, List.filter_append]
    by_cases h : a = k
    · subst h
      have h2 : List.filter (fun p => decide (p.2 = a)) [(args.length, a)] =
          [(args.length, a)] := by simp
      rw [if_pos rfl, h2, List.map_append]
      simp [List.getLast?_concat]
    · have h2 : List.filter (fun p => decide (p.2 = k)) [(args.length, a)] = [] := by
        simp [h]
      rw [if_neg h, h2, List.append_nil, ih]

theorem filter_enumFrom_eq_nil {k : List Component} (ps : List (List Component))
    (n : Nat) (h : k ∉ ps) :
    (List.enumFrom n ps).filter (fun p => decide (p.2 = k)) = [] := by
  rw [List.filter_eq_nil_iff]
  intro p hp
  have : p.2 ∈ ps := by
    have := List.enumFrom_map_snd n ps
    rw [← this]
    exact List.mem_map_of_mem Prod.snd hp
  simp only [decide_eq_true_eq]
  intro hc
  exact h (hc ▸ this)

theorem hmGet_buildLookup_head {p0 : List Component} {ps : List (List Component)}
    (h : p0 ∉ ps) : hmGet (buildLookup (p0 :: ps)) p0 = some 0 := by
  rw [hmGet_buildLookup, List.enum_cons]
  have h1 : List.filter (fun p => decide (p.2 = p0)) ((0, p0) :: List.enumFrom 1 ps) =
      (0, p0) :: List.filter (fun p => decide (p.2 = p0)) (List.enumFrom 1 ps) := by
    simp
  rw [h1, filter_enumFrom_eq_nil ps 1 h]
  rfl

/-! Lemmas about `mapExpect` (the `expect`-collect of the cmdline
pipeline) and about the pid filter chain. -/

theorem mapExpect_cons_eq_some {α β : Type} {f : α → Option β} {a : α} {l : List α}
    {out : List β} (h : mapExpect f (a :: l) = some out) :
    ∃ b bs, f a = some b ∧ mapExpect f l = some bs ∧ out = b :: bs := by
  cases hfa : f a with
  | none => simp [mapExpect, hfa] at h
  | some b =>
    cases hml : mapExpect f l with
    | none => simp [mapExpect, hfa, hml] at h
    | some bs =>
      simp only [mapExpect, hfa, hml, Option.some.injEq] at h
      exact ⟨b, bs, rfl, rfl, h.symm⟩

theorem mapExpect_eq_none_of_mem {α β : Type} {f : α → Option β} {l : List α} {a : α}
    (ha : a ∈ l) (hfa : f a = none) : mapExpect f l = none := by
  induction l with
  | nil => cases ha
  | cons b l ih =>
    rcases List.mem_cons.mp ha with rfl | ha'
    · cases hml : mapExpect f l <;> simp [mapExpect, hfa, hml]
    · cases hfb : f b <;> simp [mapExpect, hfb, ih ha']

theorem parse_u32_eq_some_iff {s : List Char} {pid : Nat} :
    parse_u32 s = some pid ↔
      s ≠ [] ∧ s.all Char.isDigit = true ∧ digitsToNat s = pid ∧ pid < 2 ^ 32 := by
  unfold parse_u32
  by_cases h1 : s = []
  · simp [h1]
  · by_cases h2 : s.all Char.isDigit
    · rw [if_pos ⟨h1, h2⟩]
      by_cases h3 : digitsToNat s < 2 ^ 32
      · rw [if_pos h3]
        constructor
        · intro h
          injection h with h
          exact ⟨h1, h2, h, h ▸ h3⟩
        · rintro ⟨_, _, rfl, _⟩
          rfl
      · rw [if_neg h3]
        constructor
        · intro h; cases h
        · rintro ⟨_, _, rfl, hlt⟩
          exact absurd hlt h3
    · rw [if_neg (fun hc => h2 hc.2)]
      constructor
      · intro h; cases h
      · rintro ⟨_, hd, _, _⟩
        exact absurd hd h2

theorem mem_pidIteratorNew {names : List (List Char)} {exeOf : Nat → Option (List Char)}
    {pat : List Char} {pid : Nat} :
    pid ∈ pidIteratorNew names exeOf pat ↔
      (∃ name ∈ names, name.all Char.isDigit = true ∧ parse_u32 name = some pid) ∧
        ∃ e, exeOf pid = some e ∧ containsStr e pat = true := by
  unfold pidIteratorNew
  rw [List.mem_filter]
  constructor
  · rintro ⟨hmem, hexe⟩
    rcases List.mem_filterMap.mp hmem with ⟨name, hname, hparse⟩
    rcases List.mem_filter.mp hname with ⟨hnm, hdig⟩
    refine ⟨⟨name, hnm, hdig, hparse⟩, ?_⟩
    cases hx : exeOf pid with
    | none => rw [hx] at hexe; cases hexe
    | some e => rw [hx] at hexe; exact ⟨e, rfl, hexe⟩
  · rintro ⟨⟨name, hnm, hdig, hparse⟩, e, hx, hce⟩
    refine ⟨List.mem_filterMap.mpr ⟨name, List.mem_filter.mpr ⟨hnm, hdig⟩, hparse⟩, ?_⟩
    rw [hx]
    exact hce

/-! The claims. -/

/-- C1, counterexample to the claim as stated: on input `./a`,
`normalize_lexically` succeeds and returns `./a`, whose components
contain a `.` (current-directory) component — the source pushes a
leading `CurDir` as the root marker and keeps it in the result. -/
theorem claim_C1_counterexample :
    normalizeChars "./a".data = some "./a".data ∧
      Component.curDir ∈ parseCore "./a".data := by
  constructor
  · decide
  · decide

/-- C1 (amended): for every input on which `normalize_lexically`
succeeds, the result contains no `..` component, and contains no `.`
component except possibly as the leading component (the root marker
retained from a relative input beginning with `.`). -/
theorem claim_C1 (s out : List Char) (h : normalizeChars s = some out) :
    Component.parentDir ∉ parseCore out ∧
      ∀ c ∈ (parseCore out).drop 1, c ≠ Component.curDir := by
  unfold normalizeChars at h
  cases hn : normalize_lexically (parseCore s) with
  | none => rw [hn] at h; cases h
  | some l =>
    rw [hn] at h
    simp only [Option.map_some', Option.some.injEq] at h
    subst h
    rcases normalize_shape hn with ⟨rp, t, hrp, rfl, ht⟩
    rw [parse_render hrp ht]
    constructor
    · intro hmem
      rcases List.mem_append.mp hmem with hm | hm
      · rcases hrp with rfl | rfl | rfl <;> simp at hm
      · rcases ht _ hm with ⟨n, hc, _⟩; cases hc
    · intro c hc hceq
      subst hceq
      rcases hrp with rfl | rfl | rfl
      · rw [List.nil_append] at hc
        rcases ht _ (List.drop_subset 1 t hc) with ⟨n, hn', _⟩
        cases hn'
      · rw [List.singleton_append, List.drop_succ_cons, List.drop_zero] at hc
        rcases ht _ hc with ⟨n, hn', _⟩
        cases hn'
      · rw [List.singleton_append, List.drop_succ_cons, List.drop_zero] at hc
        rcases ht _ hc with ⟨n, hn', _⟩
        cases hn'

/-- Witness for C1 (amended) at the concrete input `./a`. -/
theorem claim_C1_witness :
    Component.parentDir ∉ parseCore "./a".data ∧
      ∀ c ∈ (parseCore "./a".data).drop 1, c ≠ Component.curDir :=
  claim_C1 "./a".data "./a".data (by decide)

/-- C2: `normalize_lexically` fails exactly when `..` would escape above
the path's own root (some prefix of the post-root components has more
`..`s than names); in particular it fails on every input whose
components begin with an un-rooted `..`, it fails on `/a/../../b`, and
escape-above-root is the only failure mode. -/
theorem claim_C2 :
    (∀ cs : List Char, normalize_lexically (parseCore cs) = none ↔
        wouldEscape (parseCore cs) = true) ∧
      (∀ (cs : List Char) (r : List Component),
        parseCore cs = Component.parentDir :: r →
        normalize_lexically (parseCore cs) = none) ∧
      normalizeChars "/a/../../b".data = none := by
  refine ⟨normalize_none_iff_wouldEscape, ?_, by decide⟩
  intro cs r h
  rw [h]
  rfl

/-- Witness for C2 at the concrete input `../x`. -/
theorem claim_C2_witness : normalize_lexically (parseCore "../x".data) = none :=
  claim_C2.2.1 "../x".data [Component.normal ['x']] (by decide)

/-- C3: the ancestor walk probes the full component list first and then
each successive parent down to the empty path, returning the value at
the first (longest) prefix present in the lookup; with lookup
`{/a ↦ 0, /a/b ↦ 1}` and descriptor `/a/b/c` it reports `1`, not `0`. -/
theorem claim_C3 :
    (∀ (m : List (List Component × Nat)) (comps : List Component),
        walk m comps = List.findSome? (fun k => hmGet m (comps.take k))
          ((List.range (comps.length + 1)).reverse)) ∧
      walk [(parseCore "/a".data, 0), (parseCore "/a/b".data, 1)]
        (parseCore "/a/b/c".data) = some 1 :=
  ⟨walk_eq_findSome?, by decide⟩

/-- C4, counterexample to the claim as stated: with a first process
whose argument `../../x` fails normalization, the whole run aborts
(`expect` panics): the second process contributes no output even though
its analysis alone would succeed, so the failure is not a returned
error scoped to one process. -/
theorem claim_C4_counterexample :
    runAll [⟨1, "/home".data, "../../x".data, []⟩,
        ⟨2, "/".data, "a".data, ["/a".data]⟩] = ([], false) ∧
      processOne ⟨2, "/".data, "a".data, ["/a".data]⟩ =
        some [(2, "/a".data, some 0, 1)] := by
  constructor
  · decide
  · decide

/-- C4 (amended): when normalization of a joined (cwd + argument) path
fails for some kept cmdline token of a process, `main`'s
`expect("normalizable path")` panics: the run produces no output for
that process and analyzes no further process.  (`normalize_lexically`
itself returns a `Result`; the orchestration unwraps it.) -/
theorem claim_C4 (p : ProcData) (rest : List ProcData) (tok : List Char)
    (htok : tok ∈ (split_terminator nulChar p.cmdlineRaw).filter
      (fun s => !(['-', '-'].isPrefixOf s)))
    (hfail : normalizeJoined p.cwd tok = none) :
    runAll (p :: rest) = ([], false) := by
  have hargs : normalizeArgs p.cwd (split_terminator nulChar p.cmdlineRaw) = none :=
    mapExpect_eq_none_of_mem htok hfail
  simp [runAll, processOne, hargs]

/-- Witness for C4 (amended) at a concrete escaping argument. -/
theorem claim_C4_witness :
    runAll [⟨1, "/home".data, "../../x".data, []⟩] = ([], false) :=
  claim_C4 ⟨1, "/home".data, "../../x".data, []⟩ [] "../../x".data
    (by decide) (by decide)

/-- C5: `normalize_lexically` is idempotent — whenever it succeeds with
result `q`, running it again on `q` succeeds and returns `q`. -/
theorem claim_C5 (s q : List Char) (h : normalizeChars s = some q) :
    normalizeChars q = some q := by
  unfold normalizeChars at h ⊢
  cases hn : normalize_lexically (parseCore s) with
  | none => rw [hn] at h; cases h
  | some l =>
    rw [hn] at h
    simp only [Option.map_some', Option.some.injEq] at h
    subst h
    rcases normalize_shape hn with ⟨rp, t, hrp, rfl, ht⟩
    rw [parse_render hrp ht,
      normalize_of_clean hrp (by
        intro c hc
        rcases ht c hc with ⟨n, h1, _⟩
        exact ⟨n, h1⟩)]
    rfl

/-- Witness for C5 at the concrete input `/a/x/../b`. -/
theorem claim_C5_witness : normalizeChars "/a/b".data = some "/a/b".data :=
  claim_C5 "/a/x/../b".data "/a/b".data (by decide)

/-- C6: tokens starting with `--` are dropped before joining,
normalization, and lookup construction, and the remaining arguments keep
their order; the scenario cwd `/home/u`, cmdline
`["/home/u/x", "y", "--recursive"]` gives lookup
`{/home/u/x ↦ 0, /home/u/y ↦ 1}`, descriptor `/home/u/y/file.txt`
matches index 1 and `/etc/passwd` matches nothing. -/
theorem claim_C6 :
    (∀ (cwd : List Char) (pre post : List (List Char)) (flag : List Char),
        (['-', '-'].isPrefixOf flag) = true →
        normalizeArgs cwd (pre ++ flag :: post) = normalizeArgs cwd (pre ++ post)) ∧
      normalizeArgs "/home/u".data
          (split_terminator nulChar "/home/u/x\x00y\x00--recursive\x00".data) =
        some [parseCore "/home/u/x".data, parseCore "/home/u/y".data] ∧
      hmGet (buildLookup [parseCore "/home/u/x".data, parseCore "/home/u/y".data])
          (parseCore "/home/u/x".data) = some 0 ∧
      hmGet (buildLookup [parseCore "/home/u/x".data, parseCore "/home/u/y".data])
          (parseCore "/home/u/y".data) = some 1 ∧
      walk (buildLookup [parseCore "/home/u/x".data, parseCore "/home/u/y".data])
          (parseCore "/home/u/y/file.txt".data) = some 1 ∧
      walk (buildLookup [parseCore "/home/u/x".data, parseCore "/home/u/y".data])
          (parseCore "/etc/passwd".data) = none := by
  refine ⟨?_, by decide, by decide, by decide, by decide, by decide⟩
  intro cwd pre post flag hflag
  unfold normalizeArgs
  rw [List.filter_append, List.filter_append, List.filter_cons]
  simp [hflag]

/-- Witness for C6 at a concrete flag token `--x`. -/
theorem claim_C6_witness :
    normalizeArgs "/".data (["a".data] ++ "--x".data :: ["b".data]) =
      normalizeArgs "/".data (["a".data] ++ ["b".data]) :=
  claim_C6.1 "/".data ["a".data] ["b".data] "--x".data (by decide)

/-- C7: the lookup built by the single left-to-right pass maps every
key to the index of its last occurrence among the normalized arguments
(last-write-wins), its keys are unique, and concretely a repeated path
`[P, Q, P]` retrieves index 2. -/
theorem claim_C7 :
    (∀ (args : List (List Component)) (k : List Component),
        hmGet (buildLookup args) k =
          ((args.enum.filter (fun p => decide (p.2 = k))).map Prod.fst).getLast?) ∧
      (∀ args : List (List Component), ((buildLookup args).map Prod.fst).Nodup) ∧
      hmGet (buildLookup [parseCore "/a".data, parseCore "/b".data,
        parseCore "/a".data]) (parseCore "/a".data) = some 2 :=
  ⟨hmGet_buildLookup, nodupKeys_buildLookup, by decide⟩

/-- C8: the pid filter chain yields a pid exactly when some directory
entry is a non-empty digits-only name denoting that pid (as a `u32`),
the exe link resolves to UTF-8 text, and that text contains the
pattern; in particular any pid whose exe target never contains the
pattern is excluded. -/
theorem claim_C8 :
    (∀ (names : List (List Char)) (exeOf : Nat → Option (List Char))
        (pat : List Char) (pid : Nat),
        pid ∈ pidIteratorNew names exeOf pat ↔
          ∃ name ∈ names, name ≠ [] ∧ name.all Char.isDigit = true ∧
            digitsToNat name = pid ∧ pid < 2 ^ 32 ∧
            ∃ e, exeOf pid = some e ∧ containsStr e pat = true) ∧
      ∀ (names : List (List Char)) (exeOf : Nat → Option (List Char))
        (pat : List Char) (pid : Nat),
        (∀ e, exeOf pid = some e → containsStr e pat = false) →
        pid ∉ pidIteratorNew names exeOf pat := by
  constructor
  · intro names exeOf pat pid
    rw [mem_pidIteratorNew]
    constructor
    · rintro ⟨⟨name, hnm, hdig, hparse⟩, e, hx, hce⟩
      rcases parse_u32_eq_some_iff.mp hparse with ⟨hne, _, hval, hlt⟩
      exact ⟨name, hnm, hne, hdig, hval, hlt, e, hx, hce⟩
    · rintro ⟨name, hnm, hne, hdig, hval, hlt, e, hx, hce⟩
      exact ⟨⟨name, hnm, hdig, parse_u32_eq_some_iff.mpr ⟨hne, hdig, hval, hlt⟩⟩,
        e, hx, hce⟩
  · intro names exeOf pat pid h hmem
    rw [mem_pidIteratorNew] at hmem
    rcases hmem with ⟨_, e, hx, hce⟩
    rw [h e hx] at hce
    cases hce

/-- Witness for C8: a pid whose exe link never resolves is excluded. -/
theorem claim_C8_witness : 1 ∉ pidIteratorNew [['1']] (fun _ => none) [] :=
  claim_C8.2 [['1']] (fun _ => none) [] 1 (fun e h => by cases h)

/-- C9: when no prefix of a descriptor's components (the path itself,
each ancestor, and the empty path) is a key of the lookup, the walk
terminates with `none`; this no-match is an absent result, not an
error — the per-process analysis still emits one observation per
descriptor. -/
theorem claim_C9 :
    (∀ (m : List (List Component × Nat)) (comps : List Component),
        (∀ k, k ≤ comps.length → hmGet m (comps.take k) = none) →
        walk m comps = none) ∧
      ∀ (p : ProcData) (obs : List (Nat × List Char × Option Nat × Nat)),
        processOne p = some obs → obs.length = p.fds.length := by
  constructor
  · intro m comps h
    rw [walk_eq_findSome?, List.findSome?_eq_none_iff]
    intro k hk
    have hk' : k ≤ comps.length := by
      have := List.mem_range.mp (List.mem_reverse.mp hk)
      omega
    exact h k hk'
  · intro p obs h
    unfold processOne at h
    cases hn : normalizeArgs p.cwd (split_terminator nulChar p.cmdlineRaw) with
    | none => rw [hn] at h; cases h
    | some args =>
      rw [hn] at h
      injection h with h
      rw [← h]
      simp

/-- Witness for C9: `/b/c` shares no ancestor with lookup `{/a ↦ 0}`,
and a process with one unmatched descriptor still emits one
observation. -/
theorem claim_C9_witness :
    walk [(parseCore "/a".data, 0)] (parseCore "/b/c".data) = none ∧
      ([(7, "/q".data, none, 1)] :
        List (Nat × List Char × Option Nat × Nat)).length =
        (ProcData.mk 7 "/".data "x".data ["/q".data]).fds.length :=
  ⟨claim_C9.1 [(parseCore "/a".data, 0)] (parseCore "/b/c".data) (by decide),
    claim_C9.2 ⟨7, "/".data, "x".data, ["/q".data]⟩ [(7, "/q".data, none, 1)]
      (by decide)⟩

/-- C10: the first NUL-separated cmdline field (argv[0], the program
name) is not skipped: unless it starts with `--` it is normalized
against the cwd, heads the argument list at index 0 (retrievable at 0
when no later duplicate overwrites it), and is counted in the reported
total; concretely, for cmdline `/usr/bin/rm\0a` the descriptor
`/usr/bin/rm` reports `Progress: 0 / 2`. -/
theorem claim_C10 :
    (∀ (cwd a0 : List Char) (rest : List (List Char))
        (args : List (List Component)),
        (['-', '-'].isPrefixOf a0) = false →
        normalizeArgs cwd (a0 :: rest) = some args →
        ∃ p0 ps, normalizeJoined cwd a0 = some p0 ∧
          normalizeArgs cwd rest = some ps ∧ args = p0 :: ps ∧
          args.length = ps.length + 1 ∧
          (p0 ∉ ps → hmGet (buildLookup args) p0 = some 0)) ∧
      processOne ⟨5, "/tmp".data, "/usr/bin/rm\x00a".data, ["/usr/bin/rm".data]⟩ =
        some [(5, "/usr/bin/rm".data, some 0, 2)] := by
  constructor
  · intro cwd a0 rest args hflag hargs
    unfold normalizeArgs at hargs
    rw [List.filter_cons] at hargs
    simp only [hflag, Bool.not_false, if_pos] at hargs
    rcases mapExpect_cons_eq_some hargs with ⟨b, bs, hfa, hml, hout⟩
    refine ⟨b, bs, hfa, hml, hout, by rw [hout]; simp, ?_⟩
    intro hnotin
    rw [hout]
    exact hmGet_buildLookup_head hnotin
  · decide

/-- Witness for C10 at cwd `/` with argv[0] `rm`. -/
theorem claim_C10_witness :
    ∃ p0 ps, normalizeJoined "/".data "rm".data = some p0 ∧
      normalizeArgs "/".data [] = some ps ∧
      [parseCore "/rm".data] = p0 :: ps ∧
      ([parseCore "/rm".data] : List (List Component)).length = ps.length + 1 ∧
      (p0 ∉ ps → hmGet (buildLookup [parseCore "/rm".data]) p0 = some 0) :=
  claim_C10.1 "/".data "rm".data [] [parseCore "/rm".data] (by decide) (by decide)

end ProgressRm
